import Mathlib

/-!
# Verification of the mq-task task runner against its specification

A shallow embedding of the mq-task markdown task runner: the data model
(`Code`, `TaskSection`, `RuntimeSpec`, `Config`, `ExecutionMode`), the
markdown-to-section parser, the runtime-registry override merge, and the
sequential task executor, together with theorems checking the
specification's claims about them.

The CLI entry points (`run_task`, `list_tasks` in `src/main.rs`) are
embedded from the source.  The `mq_task` library itself (parser, config,
runner) is not part of the visible source tree, so those components are
modelled from the specification, as marked in their doc comments.
-/

set_option autoImplicit false

deriving instance DecidableEq for Except

namespace MqTask

/-- ASCII-style lowercasing, character by character (the embedding's
counterpart of Rust's `to_lowercase` on the identifiers involved). -/
def toLowerStr (s : String) : String :=
  ⟨s.data.map Char.toLower⟩

/-- Strip leading whitespace characters. -/
def dropLeadingWs (cs : List Char) : List Char :=
  cs.dropWhile Char.isWhitespace

/-- Strip whitespace from both ends (Rust's `str::trim`). -/
def trimStr (s : String) : String :=
  ⟨((dropLeadingWs s.data).reverse.dropWhile Char.isWhitespace).reverse⟩

/-- Drop the first `n` characters of a string. -/
def dropStr (n : Nat) (s : String) : String :=
  ⟨s.data.drop n⟩

/-- Join with newline separators (Rust's `join("\n")`). -/
def intercalateNl : List String → String
  | [] => ""
  | [s] => s
  | s :: rest => s ++ "\n" ++ intercalateNl rest

/-- Modelled from the spec: the closed execution-mode variant
{Stdin, File, Arg} governing how a code block's text reaches its runtime
(`ExecutionMode` in the mq_task library, not present under src/). -/
inductive ExecutionMode where
  | stdin
  | file
  | arg
deriving DecidableEq, Repr

/-- Error raised when an execution-mode token is not recognized; it
carries the offending token. -/
inductive ModeError where
  | invalidMode (token : String)
deriving DecidableEq, Repr

/-- Modelled from the spec: `ExecutionMode::try_from` accepts the
case-insensitive token set "stdin" | "file" | "arg"; any other token is a
named error carrying the token (the library impl is not under src/). -/
def ExecutionMode.tryFrom (s : String) : Except ModeError ExecutionMode :=
  match toLowerStr s with
  | "stdin" => .ok .stdin
  | "file" => .ok .file
  | "arg" => .ok .arg
  | _ => .error (.invalidMode s)

/-- A runtime specification: the command to invoke and the delivery mode. -/
structure RuntimeSpec where
  command : String
  mode : ExecutionMode
deriving DecidableEq, Repr

/-- Modelled from the spec: the Config record {heading_level, runtimes,
default_mode}; the runtime registry is a key-value list from language to
`RuntimeSpec` (the library impl is not under src/). -/
structure Config where
  heading_level : Nat
  runtimes : List (String × RuntimeSpec)
  default_mode : ExecutionMode
deriving DecidableEq, Repr

/-- First-match lookup in the runtime registry. -/
def lookupRuntime (key : String) : List (String × RuntimeSpec) → Option RuntimeSpec
  | [] => none
  | (k, v) :: rest => if k = key then some v else lookupRuntime key rest

/-- Replace the value at the first occurrence of `key`, keeping its
position; append at the end when the key is absent. -/
def insertRuntime (key : String) (v : RuntimeSpec) :
    List (String × RuntimeSpec) → List (String × RuntimeSpec)
  | [] => [(key, v)]
  | (k, w) :: rest =>
    if k = key then (key, v) :: rest else (k, w) :: insertRuntime key v rest

/-- Error raised by override application; each constructor carries the
offending entry string. -/
inductive OverrideError where
  | missingColon (entry : String)
  | emptyLang (entry : String)
  | emptyCommand (entry : String)
deriving DecidableEq, Repr

/-- Split a character list at the first occurrence of `sep`; `none` when
`sep` does not occur. The right part keeps any further separators. -/
def splitCharsFirst (sep : Char) : List Char → Option (List Char × List Char)
  | [] => none
  | c :: cs =>
    if c = sep then some ([], cs)
    else (splitCharsFirst sep cs).map (fun p => (c :: p.1, p.2))

/-- Split a string on its first colon only. -/
def splitFirstColon (s : String) : Option (String × String) :=
  (splitCharsFirst ':' s.data).map (fun p => (String.mk p.1, String.mk p.2))

/-- Modelled from the spec: parse one "lang:command" override entry. The
entry is split on its first colon; missing colon, empty language or empty
command are named errors carrying the entry; the language part is
lowercased (the library impl is not under src/). -/
def parseOverride (entry : String) : Except OverrideError (String × String) :=
  match splitFirstColon entry with
  | none => .error (.missingColon entry)
  | some (lang, cmd) =>
    if lang = "" then .error (.emptyLang entry)
    else if cmd = "" then .error (.emptyCommand entry)
    else .ok (toLowerStr lang, cmd)

/-- The mode an overridden language receives: the batch mode when
present, else the language's previous mode, else the default mode. -/
def modeFor (mode? : Option ExecutionMode) (cfg : Config) (key : String) :
    ExecutionMode :=
  match mode? with
  | some m => m
  | none =>
    match lookupRuntime key cfg.runtimes with
    | some spec0 => spec0.mode
    | none => cfg.default_mode

/-- Modelled from the spec: apply a single override entry to a config.
When `mode?` is absent the touched language keeps its previous mode
(falling back to `default_mode` for a newly registered language); when
present, the language receives that mode (library impl not under src/). -/
def applyOne (mode? : Option ExecutionMode) (cfg : Config) (entry : String) :
    Except OverrideError Config :=
  match parseOverride entry with
  | .error e => .error e
  | .ok (key, cmd) =>
    .ok { cfg with runtimes :=
      insertRuntime key ⟨cmd, modeFor mode? cfg key⟩ cfg.runtimes }

/-- Modelled from the spec: `Config::apply_runtime_overrides` applies each
"lang:command" entry in order, with an optional batch mode (the library
impl is not under src/). -/
def apply_runtime_overrides (cfg : Config) (entries : List String)
    (mode? : Option ExecutionMode) : Except OverrideError Config :=
  match entries with
  | [] => .ok cfg
  | e :: rest =>
    match applyOne mode? cfg e with
    | .error err => .error err
    | .ok cfg' => apply_runtime_overrides cfg' rest mode?

/-- Modelled from the spec: the builtin seed table and default config
shape (heading level 2, a documented shell/python seed, stdin default
mode); the exact seed set is an implementation choice per the spec. -/
def Config.default : Config :=
  { heading_level := 2
  , runtimes :=
      [ ("sh", ⟨"sh", .stdin⟩)
      , ("bash", ⟨"bash", .stdin⟩)
      , ("python", ⟨"python3", .stdin⟩)
      , ("javascript", ⟨"node", .stdin⟩) ]
  , default_mode := .stdin }

/-- A parsed code block: the fence info-string lowercased and trimmed as
`lang`, and the literal fence interior as `body`. -/
structure Code where
  lang : String
  body : String
deriving DecidableEq, Repr

/-- A parsed section: title, optional description (free text preceding
the first code block), and the ordered code blocks. -/
structure Section where
  title : String
  description : Option String
  codes : List Code
deriving DecidableEq, Repr

/-- Parse errors: heading level outside [1,6], or an unterminated fence
at end of input. -/
inductive ParseErr where
  | invalidHeadingLevel (level : Nat)
  | unterminatedFence
deriving DecidableEq, Repr

/-- Number of leading `#` characters of a line. -/
def leadingHashes : List Char → Nat
  | '#' :: cs => leadingHashes cs + 1
  | _ => 0

/-- A heading line at exactly the given depth. -/
def isHeading (level : Nat) (l : String) : Bool :=
  leadingHashes l.data = level

/-- Title of a heading line: the trimmed remainder after the hashes. -/
def headingTitle (level : Nat) (l : String) : String :=
  trimStr (dropStr level l)

/-- The fence marker. -/
def fenceMarker : String := "```"

/-- A fence marker line (opens or closes a fenced code block). -/
def isFence (l : String) : Bool :=
  fenceMarker.data.isPrefixOf l.data

/-- Language of an opening fence line: the info-string, trimmed and
lowercased. -/
def fenceLang (l : String) : String :=
  toLowerStr (trimStr (dropStr 3 l))

/-- Join body lines back into the literal fence interior text, each line
with its terminating newline. -/
def mkBody (ls : List String) : String :=
  String.join (ls.map (fun x => x ++ "\n"))

/-- Accumulator for the section currently being parsed. -/
structure SecAcc where
  title : String
  descLines : List String
  codes : List Code
deriving DecidableEq, Repr

/-- Close the accumulated section. -/
def SecAcc.finish (a : SecAcc) : Section :=
  { title := a.title
  , description :=
      if trimStr (intercalateNl a.descLines) = "" then none
      else some (trimStr (intercalateNl a.descLines))
  , codes := a.codes }

/-- Description lines accumulate only before the first code block. -/
def SecAcc.addDescLine (a : SecAcc) (l : String) : SecAcc :=
  if a.codes.isEmpty then { a with descLines := a.descLines ++ [l] } else a

/-- Append a code block to the accumulated section. -/
def SecAcc.addCode (a : SecAcc) (c : Code) : SecAcc :=
  { a with codes := a.codes ++ [c] }

/-- Scanner state: before any section, inside a fence before any
section, inside a section, or inside a fence within a section (with the
fence language and the body lines accumulated so far). -/
inductive PState where
  | top
  | topFence
  | insec (acc : SecAcc)
  | infence (acc : SecAcc) (lang : String) (body : List String)
deriving DecidableEq, Repr

/-- Modelled from the spec: the section parser's line scanner. A heading
at the configured depth opens a new section and closes the previous one;
a fence line opens a code block whose interior runs to the next fence
line, captured verbatim; other lines are description text; headings of
any depth inside a fence are not structural; a fence still open at end
of input is an error (the library parser is not under src/). -/
def parseGo (level : Nat) : List String → PState → Except ParseErr (List Section)
  | [], .top => .ok []
  | [], .topFence => .error .unterminatedFence
  | [], .insec acc => .ok [acc.finish]
  | [], .infence _ _ _ => .error .unterminatedFence
  | l :: ls, .top =>
    if isHeading level l then
      parseGo level ls (.insec ⟨headingTitle level l, [], []⟩)
    else if isFence l then
      parseGo level ls .topFence
    else
      parseGo level ls .top
  | l :: ls, .topFence =>
    if isFence l then parseGo level ls .top else parseGo level ls .topFence
  | l :: ls, .insec acc =>
    if isHeading level l then
      match parseGo level ls (.insec ⟨headingTitle level l, [], []⟩) with
      | .error e => .error e
      | .ok secs => .ok (acc.finish :: secs)
    else if isFence l then
      parseGo level ls (.infence acc (fenceLang l) [])
    else
      parseGo level ls (.insec (acc.addDescLine l))
  | l :: ls, .infence acc lang body =>
    if isFence l then
      parseGo level ls (.insec (acc.addCode ⟨lang, mkBody body⟩))
    else
      parseGo level ls (.infence acc lang (body ++ [l]))

/-- Modelled from the spec: `parse(text, heading_level)` over a document
already split into lines; a heading level outside [1,6] is rejected
before any line is scanned (the library parser is not under src/). -/
def parse (level : Nat) (lines : List String) : Except ParseErr (List Section) :=
  if level < 1 ∨ 6 < level then .error (.invalidHeadingLevel level)
  else parseGo level lines .top

/-- Modelled from the spec: `list_task_sections` parses the document and
returns the Sections unchanged — a pure read-only query, no re-parsing
or mutation (the library impl is not under src/). -/
def list_task_sections (cfg : Config) (lines : List String) :
    Except ParseErr (List Section) :=
  parse cfg.heading_level lines

/-- Embedded from `src/main.rs` `list_tasks` (lines 235-242): with a
language filter, keep the sections having at least one code block whose
`lang` equals the filter; otherwise keep all sections. -/
def filterSectionsByLang (lang? : Option String) (sections : List Section) :
    List Section :=
  match lang? with
  | some lang => sections.filter (fun s => s.codes.any (fun c => c.lang == lang))
  | none => sections

/-- Errors surfaced by the CLI configuration phase of `run_task`. -/
inductive CliError where
  | modeErr (e : ModeError)
  | overrideErr (e : OverrideError)
deriving DecidableEq, Repr

/-- Embedded from `src/main.rs` `run_task`/`list_tasks` (lines 183-186,
223-226): an explicit `--level` overrides the config's heading level,
with no validation at this point. -/
def applyLevel (cfg : Config) (level? : Option Nat) : Config :=
  match level? with
  | some l => { cfg with heading_level := l }
  | none => cfg

/-- Embedded from `src/main.rs` `run_task` (lines 181-200): apply the
level override, parse the optional execution-mode token (aborting on an
invalid token), and apply the runtime overrides only when the override
list is non-empty. -/
def prepareConfig (cfg0 : Config) (level? : Option Nat) (overrides : List String)
    (modeStr? : Option String) : Except CliError Config :=
  let cfg := applyLevel cfg0 level?
  let modeRes : Except CliError (Option ExecutionMode) :=
    match modeStr? with
    | some s =>
      match ExecutionMode.tryFrom s with
      | .error e => .error (.modeErr e)
      | .ok m => .ok (some m)
    | none => .ok none
  match modeRes with
  | .error e => .error e
  | .ok mode? =>
    if overrides.isEmpty then .ok cfg
    else
      match apply_runtime_overrides cfg overrides mode? with
      | .error e => .error (.overrideErr e)
      | .ok cfg' => .ok cfg'

/-- Runner errors: parse failure, lookup failures, and execution
failures carrying the child's exit code. -/
inductive RunError where
  | parseFailed (e : ParseErr)
  | taskNotFound (title : String)
  | nothingToExecute
  | languageNotRegistered (lang : String)
  | spawnFailure
  | exitCode (code : Nat)
deriving DecidableEq, Repr

/-- First section whose title exactly matches the requested task name. -/
def findSection (name : String) (secs : List Section) : Option Section :=
  secs.find? (fun s => s.title == name)

/-- Codes selected for execution: those matching the language filter, or
all codes when no filter is given. -/
def selectCodes (filter? : Option String) (codes : List Code) : List Code :=
  match filter? with
  | some f => codes.filter (fun c => c.lang == f)
  | none => codes

/-- Modelled from the spec: the sequential execution loop. Child-process
behavior is abstracted as an oracle `exits` giving each block index its
exit status (0 = success). Returns the indices of the blocks actually
executed, in order, and the first failure if any; the first non-zero
exit aborts the remaining blocks and is returned as the failure's exit
code (the library Runner is not under src/). -/
def execCodes (cfg : Config) (exits : Nat → Nat) (i : Nat) :
    List Code → List Nat × Option RunError
  | [] => ([], none)
  | c :: cs =>
    match lookupRuntime c.lang cfg.runtimes with
    | none => ([], some (.languageNotRegistered c.lang))
    | some _ =>
      if exits i = 0 then
        let r := execCodes cfg exits (i + 1) cs
        (i :: r.1, r.2)
      else
        ([i], some (.exitCode (exits i)))

/-- Modelled from the spec: `run_task_with_lang_filter` — parse, locate
the task by exact title (first match), select codes by the language
filter, and execute them in order; distinct errors for a missing task
and an empty selection (the library Runner is not under src/). -/
def run_task_with_lang_filter (cfg : Config) (exits : Nat → Nat)
    (lines : List String) (name : String) (filter? : Option String) :
    List Nat × Option RunError :=
  match parse cfg.heading_level lines with
  | .error e => ([], some (.parseFailed e))
  | .ok secs =>
    match findSection name secs with
    | none => ([], some (.taskNotFound name))
    | some s =>
      let codes := selectCodes filter? s.codes
      if codes.isEmpty then ([], some .nothingToExecute)
      else execCodes cfg exits 0 codes

/-- Outcome of one spawned child: spawn failure or exit with a status. -/
inductive ChildOutcome where
  | spawnFailure
  | exited (code : Nat)
deriving DecidableEq, Repr

/-- Remove the file at the given path from the file-system model. -/
def removeFile (tmp : String) : List (String × String) → List (String × String)
  | [] => []
  | (p, c) :: rest => if p = tmp then rest else (p, c) :: removeFile tmp rest

/-- Modelled from the spec: one File-mode execution step over an
explicit file-system state (a path-to-contents list). The body is
written verbatim to a fresh temporary file, the child runs, and the
temporary file is deleted on every exit path — spawn failure, zero and
non-zero exit alike (the library impl is not under src/). -/
def executeFileMode (fs : List (String × String)) (tmp : String) (body : String)
    (out : ChildOutcome) : List (String × String) × Option RunError :=
  let fs1 := (tmp, body) :: fs
  match out with
  | .spawnFailure => (removeFile tmp fs1, some .spawnFailure)
  | .exited 0 => (removeFile tmp fs1, none)
  | .exited (n + 1) => (removeFile tmp fs1, some (.exitCode (n + 1)))

/-! ## Helper lemmas -/

/-- A string differs from the empty string iff its character list is
nonempty. -/
theorem ne_empty_iff_data (s : String) : s ≠ "" ↔ s.data ≠ [] := by
  rw [ne_eq, String.ext_iff]

/-- `splitCharsFirst` finds nothing when the separator is absent. -/
theorem splitCharsFirst_of_not_mem {sep : Char} :
    ∀ (a : List Char), sep ∉ a → splitCharsFirst sep a = none := by
  intro a
  induction a with
  | nil => intro _; rfl
  | cons c cs ih =>
    intro h
    have hc : ¬(c = sep) := fun hc => h (hc ▸ List.mem_cons_self c cs)
    have hcs : sep ∉ cs := fun hm => h (List.mem_cons_of_mem c hm)
    simp [splitCharsFirst, hc, ih hcs]

/-- `splitCharsFirst` splits exactly at the first separator. -/
theorem splitCharsFirst_append {sep : Char} :
    ∀ (a b : List Char), sep ∉ a →
      splitCharsFirst sep (a ++ sep :: b) = some (a, b) := by
  intro a b
  induction a with
  | nil => intro _; simp [splitCharsFirst]
  | cons c cs ih =>
    intro h
    have hc : ¬(c = sep) := fun hc => h (hc ▸ List.mem_cons_self c cs)
    have hcs : sep ∉ cs := fun hm => h (List.mem_cons_of_mem c hm)
    simp [splitCharsFirst, hc, ih hcs]

/-- Character-list form of a string with exactly one distinguished
colon. -/
theorem splitFirstColon_append (lang cmd : String) (h : ':' ∉ lang.data) :
    splitFirstColon (lang ++ ":" ++ cmd) = some (lang, cmd) := by
  have hd : (lang ++ ":" ++ cmd).data = lang.data ++ ':' :: cmd.data := by
    simp [String.data_append]
  rw [splitFirstColon, hd, splitCharsFirst_append lang.data cmd.data h]
  rfl

/-! ## C6: execution-mode token parsing -/

/-- `tryFrom` as an if-chain over the lowercased token. -/
theorem tryFrom_eq (s : String) :
    ExecutionMode.tryFrom s =
      if toLowerStr s = "stdin" then .ok .stdin
      else if toLowerStr s = "file" then .ok .file
      else if toLowerStr s = "arg" then .ok .arg
      else .error (.invalidMode s) := by
  unfold ExecutionMode.tryFrom
  split <;> simp_all

/-- C6: `ExecutionMode.tryFrom` accepts exactly the tokens "stdin",
"file" and "arg" case-insensitively (in particular "FILE" succeeds as
File), and any other token yields a named error carrying that token —
never a silent default mode. -/
theorem tryFrom_token_set :
    (∀ s : String, ExecutionMode.tryFrom s = .ok .stdin ↔ toLowerStr s = "stdin") ∧
    (∀ s : String, ExecutionMode.tryFrom s = .ok .file ↔ toLowerStr s = "file") ∧
    (∀ s : String, ExecutionMode.tryFrom s = .ok .arg ↔ toLowerStr s = "arg") ∧
    (∀ s : String, toLowerStr s ≠ "stdin" → toLowerStr s ≠ "file" →
      toLowerStr s ≠ "arg" →
      ExecutionMode.tryFrom s = .error (.invalidMode s)) ∧
    ExecutionMode.tryFrom "FILE" = .ok .file := by
  refine ⟨?_, ?_, ?_, ?_, by decide⟩ <;>
    intro s <;> rw [tryFrom_eq] <;> split_ifs <;> simp_all

/-- Witness for C6: the invalid token "socket" is rejected by name. -/
theorem tryFrom_token_set_witness :
    ExecutionMode.tryFrom "socket" = .error (.invalidMode "socket") :=
  tryFrom_token_set.2.2.2.1 "socket" (by decide) (by decide) (by decide)

/-! ## C5: override entry splitting -/

/-- C5: an override entry is split on its first colon only (commands may
contain colons), the left part lowercased becomes the key; a missing
colon, an empty language or an empty command is a named error carrying
the offending entry. -/
theorem parseOverride_split_spec :
    (∀ lang cmd : String, ':' ∉ lang.data → lang ≠ "" → cmd ≠ "" →
      parseOverride (lang ++ ":" ++ cmd) = .ok (toLowerStr lang, cmd)) ∧
    (∀ s : String, ':' ∉ s.data →
      parseOverride s = .error (.missingColon s)) ∧
    (∀ cmd : String,
      parseOverride (":" ++ cmd) = .error (.emptyLang (":" ++ cmd))) ∧
    (∀ lang : String, ':' ∉ lang.data → lang ≠ "" →
      parseOverride (lang ++ ":") = .error (.emptyCommand (lang ++ ":"))) := by
  refine ⟨?_, ?_, ?_, ?_⟩
  · intro lang cmd hmem hlang hcmd
    rw [parseOverride, splitFirstColon_append lang cmd hmem]
    simp [hlang, hcmd]
  · intro s hmem
    rw [parseOverride, splitFirstColon, splitCharsFirst_of_not_mem s.data hmem]
    rfl
  · intro cmd
    have h : (":" ++ cmd) = ("" ++ ":" ++ cmd) := by simp
    rw [parseOverride]
    rw [show splitFirstColon (":" ++ cmd) = some ("", cmd) by
      rw [h]; exact splitFirstColon_append "" cmd (by simp)]
    simp
  · intro lang hmem hlang
    have h : (lang ++ ":") = (lang ++ ":" ++ "") := by simp
    rw [parseOverride]
    rw [show splitFirstColon (lang ++ ":") = some (lang, "") by
      rw [h]; exact splitFirstColon_append lang "" hmem]
    simp [hlang]

/-- Witness for C5: a well-formed entry with a colon inside the command,
and the three malformed shapes, at concrete inputs. -/
theorem parseOverride_split_spec_witness :
    parseOverride ("PyThon" ++ ":" ++ "/usr/bin:python3.11") =
      .ok ("python", "/usr/bin:python3.11") ∧
    parseOverride "python" = .error (.missingColon "python") ∧
    parseOverride (":" ++ "cmd") = .error (.emptyLang (":" ++ "cmd")) ∧
    parseOverride ("go" ++ ":") = .error (.emptyCommand ("go" ++ ":")) := by
  refine ⟨?_, ?_, ?_, ?_⟩
  · have h := parseOverride_split_spec.1 "PyThon" "/usr/bin:python3.11"
      (by decide) (by decide) (by decide)
    rw [h]; decide
  · exact parseOverride_split_spec.2.1 "python" (by decide)
  · exact parseOverride_split_spec.2.2.1 "cmd"
  · exact parseOverride_split_spec.2.2.2 "go" (by decide) (by decide)

/-! ## Registry lemmas -/

/-- Looking up the inserted key finds the inserted value. -/
theorem lookup_insertRuntime_self (key : String) (v : RuntimeSpec) :
    ∀ (r : List (String × RuntimeSpec)),
      lookupRuntime key (insertRuntime key v r) = some v := by
  intro r
  induction r with
  | nil => simp [insertRuntime, lookupRuntime]
  | cons p rest ih =>
    obtain ⟨k, w⟩ := p
    by_cases h : k = key <;> simp [insertRuntime, lookupRuntime, h, ih]

/-- Inserting at one key leaves lookups at other keys unchanged. -/
theorem lookup_insertRuntime_ne (k key : String) (v : RuntimeSpec)
    (h : k ≠ key) :
    ∀ (r : List (String × RuntimeSpec)),
      lookupRuntime k (insertRuntime key v r) = lookupRuntime k r := by
  intro r
  induction r with
  | nil => simp [insertRuntime, lookupRuntime, Ne.symm h]
  | cons p rest ih =>
    obtain ⟨k', w⟩ := p
    by_cases h' : k' = key
    · subst h'
      simp [insertRuntime, lookupRuntime, Ne.symm h]
    · by_cases h'' : k' = k <;>
        simp [insertRuntime, lookupRuntime, h, h', h'', ih]

/-- A second insert at the same key collapses onto the first. -/
theorem insertRuntime_same (key : String) (v w : RuntimeSpec) :
    ∀ (r : List (String × RuntimeSpec)),
      insertRuntime key v (insertRuntime key w r) = insertRuntime key v r := by
  intro r
  induction r with
  | nil => simp [insertRuntime]
  | cons p rest ih =>
    obtain ⟨k', u⟩ := p
    by_cases h : k' = key <;> simp [insertRuntime, h, ih]

/-- Inserting an already-present binding changes nothing. -/
theorem insertRuntime_lookup_self (key : String) (v : RuntimeSpec) :
    ∀ (r : List (String × RuntimeSpec)),
      lookupRuntime key r = some v → insertRuntime key v r = r := by
  intro r
  induction r with
  | nil => intro h; simp [lookupRuntime] at h
  | cons p rest ih =>
    obtain ⟨k', u⟩ := p
    intro h
    by_cases hk : k' = key
    · subst hk
      simp [lookupRuntime] at h
      simp [insertRuntime, h]
    · simp [lookupRuntime, hk] at h
      simp [insertRuntime, hk, ih h]

/-- Inserts at distinct keys commute when the first key is already
present. -/
theorem insertRuntime_comm_of_mem (k k' : String) (v v' w : RuntimeSpec)
    (hne : k ≠ k') :
    ∀ (r : List (String × RuntimeSpec)),
      lookupRuntime k r = some w →
      insertRuntime k' v' (insertRuntime k v r) =
        insertRuntime k v (insertRuntime k' v' r) := by
  intro r
  induction r with
  | nil => intro h; simp [lookupRuntime] at h
  | cons p rest ih =>
    obtain ⟨a, u⟩ := p
    intro h
    by_cases ha : a = k
    · subst ha
      simp [insertRuntime, hne]
    · by_cases ha' : a = k'
      · subst ha'
        simp [insertRuntime, ha]
      · simp [lookupRuntime, ha] at h
        simp [insertRuntime, ha, ha', ih h]

/-! ## Override application lemmas -/

/-- `applyOne` on a parsed entry performs one insert whose mode is given
by `modeFor`. -/
theorem applyOne_eq (mode? : Option ExecutionMode) (cfg : Config)
    (entry key cmd : String) (h : parseOverride entry = .ok (key, cmd)) :
    applyOne mode? cfg entry =
      .ok { cfg with runtimes :=
        insertRuntime key ⟨cmd, modeFor mode? cfg key⟩ cfg.runtimes } := by
  rw [applyOne, h]

/-- `applyOne` fails exactly on a parse failure, with the same error. -/
theorem applyOne_err (mode? : Option ExecutionMode) (cfg : Config)
    (entry : String) (e : OverrideError)
    (h : parseOverride entry = .error e) :
    applyOne mode? cfg entry = .error e := by
  rw [applyOne, h]

/-- One successful step of override application. -/
theorem apply_overrides_cons_ok (cfg a : Config) (e : String)
    (rest : List String) (mode? : Option ExecutionMode)
    (h : applyOne mode? cfg e = .ok a) :
    apply_runtime_overrides cfg (e :: rest) mode? =
      apply_runtime_overrides a rest mode? := by
  rw [apply_runtime_overrides, h]

/-- One failing step of override application. -/
theorem apply_overrides_cons_err (cfg : Config) (e : String)
    (rest : List String) (mode? : Option ExecutionMode) (err : OverrideError)
    (h : applyOne mode? cfg e = .error err) :
    apply_runtime_overrides cfg (e :: rest) mode? = .error err := by
  rw [apply_runtime_overrides, h]

/-- Mode stability: a language registered with mode `m` keeps mode `m`
across any override batch whose optional mode is absent or equal to
`m`. -/
theorem apply_overrides_mode_stable :
    ∀ (entries : List String) (cfg cfg' : Config)
      (mode? : Option ExecutionMode) (key c : String) (m : ExecutionMode),
      apply_runtime_overrides cfg entries mode? = .ok cfg' →
      lookupRuntime key cfg.runtimes = some ⟨c, m⟩ →
      (mode? = none ∨ mode? = some m) →
      ∃ c', lookupRuntime key cfg'.runtimes = some ⟨c', m⟩ := by
  intro entries
  induction entries with
  | nil =>
    intro cfg cfg' mode? key c m h hl _
    rw [apply_runtime_overrides] at h
    cases h
    exact ⟨c, hl⟩
  | cons e rest ih =>
    intro cfg cfg' mode? key c m h hl hcompat
    rw [apply_runtime_overrides] at h
    cases hp : parseOverride e with
    | error err => rw [applyOne_err mode? cfg e err hp] at h; cases h
    | ok p =>
      obtain ⟨k₀, cmd₀⟩ := p
      rw [applyOne_eq mode? cfg e k₀ cmd₀ hp] at h
      have h' : apply_runtime_overrides
          { cfg with runtimes :=
              insertRuntime k₀ ⟨cmd₀, modeFor mode? cfg k₀⟩ cfg.runtimes }
          rest mode? = .ok cfg' := h
      by_cases hk : k₀ = key
      · subst hk
        have hmode : modeFor mode? cfg k₀ = m := by
          rcases hcompat with hc | hc <;> subst hc <;> simp [modeFor, hl]
        refine ih _ cfg' mode? k₀ cmd₀ m h' ?_ hcompat
        show lookupRuntime k₀
            (insertRuntime k₀ ⟨cmd₀, modeFor mode? cfg k₀⟩ cfg.runtimes) =
          some ⟨cmd₀, m⟩
        rw [hmode, lookup_insertRuntime_self]
      · have hk' : key ≠ k₀ := fun hc => hk hc.symm
        refine ih _ cfg' mode? key c m h' ?_ hcompat
        show lookupRuntime key
            (insertRuntime k₀ ⟨cmd₀, modeFor mode? cfg k₀⟩ cfg.runtimes) =
          some ⟨c, m⟩
        rw [lookup_insertRuntime_ne key k₀ _ hk']
        exact hl

/-! ## C3: overriding without a mode preserves the mode -/

/-- C3: when `apply_runtime_overrides` is called with the mode absent,
every previously registered language — in particular each overridden
one — keeps exactly its previous execution mode; only the command can
change, never the delivery strategy. -/
theorem override_without_mode_preserves_mode :
    ∀ (entries : List String) (cfg cfg' : Config) (key : String)
      (spec0 : RuntimeSpec),
      apply_runtime_overrides cfg entries none = .ok cfg' →
      lookupRuntime key cfg.runtimes = some spec0 →
      ∃ cmd', lookupRuntime key cfg'.runtimes = some ⟨cmd', spec0.mode⟩ := by
  intro entries cfg cfg' key spec0 h hl
  obtain ⟨c, m⟩ := spec0
  exact apply_overrides_mode_stable entries cfg cfg' none key c m h hl (Or.inl rfl)

/-- Witness for C3: overriding `python`'s command alone preserves its
previously registered File mode. -/
theorem override_without_mode_preserves_mode_witness :
    ∃ cmd', lookupRuntime "python"
      (Config.mk 2 [("python", ⟨"python3.11", .file⟩)] .stdin).runtimes =
      some ⟨cmd', ExecutionMode.file⟩ :=
  override_without_mode_preserves_mode ["python:python3.11"]
    (Config.mk 2 [("python", ⟨"python3", .file⟩)] .stdin)
    (Config.mk 2 [("python", ⟨"python3.11", .file⟩)] .stdin)
    "python" ⟨"python3", .file⟩ (by decide) (by decide)

/-- Keys not named by any entry keep their bindings. -/
theorem apply_overrides_untouched :
    ∀ (entries : List String) (cfg cfg' : Config)
      (mode? : Option ExecutionMode) (k : String),
      apply_runtime_overrides cfg entries mode? = .ok cfg' →
      (∀ e ∈ entries, ∀ p : String × String,
        parseOverride e = .ok p → p.1 ≠ k) →
      lookupRuntime k cfg'.runtimes = lookupRuntime k cfg.runtimes := by
  intro entries
  induction entries with
  | nil =>
    intro cfg cfg' mode? k h _
    rw [apply_runtime_overrides] at h
    cases h
    rfl
  | cons e rest ih =>
    intro cfg cfg' mode? k h hnk
    rw [apply_runtime_overrides] at h
    cases hp : parseOverride e with
    | error err => rw [applyOne_err mode? cfg e err hp] at h; cases h
    | ok p =>
      obtain ⟨k₀, cmd₀⟩ := p
      rw [applyOne_eq mode? cfg e k₀ cmd₀ hp] at h
      have h' : apply_runtime_overrides
          { cfg with runtimes :=
              insertRuntime k₀ ⟨cmd₀, modeFor mode? cfg k₀⟩ cfg.runtimes }
          rest mode? = .ok cfg' := h
      have hk₀ : k₀ ≠ k := hnk e (List.mem_cons_self e rest) (k₀, cmd₀) hp
      have := ih _ cfg' mode? k h'
        (fun e' he' p hp' => hnk e' (List.mem_cons_of_mem e he') p hp')
      rw [this]
      show lookupRuntime k
          (insertRuntime k₀ ⟨cmd₀, modeFor mode? cfg k₀⟩ cfg.runtimes) =
        lookupRuntime k cfg.runtimes
      exact lookup_insertRuntime_ne k k₀ _ (fun hc => hk₀ hc.symm) cfg.runtimes

/-- Override application never changes the heading level or the default
mode. -/
theorem apply_overrides_fields :
    ∀ (entries : List String) (cfg cfg' : Config)
      (mode? : Option ExecutionMode),
      apply_runtime_overrides cfg entries mode? = .ok cfg' →
      cfg'.heading_level = cfg.heading_level ∧
      cfg'.default_mode = cfg.default_mode := by
  intro entries
  induction entries with
  | nil =>
    intro cfg cfg' mode? h
    rw [apply_runtime_overrides] at h
    cases h
    exact ⟨rfl, rfl⟩
  | cons e rest ih =>
    intro cfg cfg' mode? h
    rw [apply_runtime_overrides] at h
    cases hp : parseOverride e with
    | error err => rw [applyOne_err mode? cfg e err hp] at h; cases h
    | ok p =>
      obtain ⟨k₀, cmd₀⟩ := p
      rw [applyOne_eq mode? cfg e k₀ cmd₀ hp] at h
      have h' : apply_runtime_overrides
          { cfg with runtimes :=
              insertRuntime k₀ ⟨cmd₀, modeFor mode? cfg k₀⟩ cfg.runtimes }
          rest mode? = .ok cfg' := h
      have hres := ih
        { cfg with runtimes :=
            insertRuntime k₀ ⟨cmd₀, modeFor mode? cfg k₀⟩ cfg.runtimes }
        cfg' mode? h'
      exact hres

/-- Perturbing the command of a key that is registered (with the batch
mode when present) and overridden again later in the batch does not
change where the batch ends up. -/
theorem apply_overrides_absorb :
    ∀ (entries : List String) (cfg : Config) (k c cmd' : String)
      (m : ExecutionMode) (mode? : Option ExecutionMode),
      lookupRuntime k cfg.runtimes = some ⟨c, m⟩ →
      (mode? = none ∨ mode? = some m) →
      (∃ e ∈ entries, ∃ p : String × String,
        parseOverride e = .ok p ∧ p.1 = k) →
      apply_runtime_overrides
        { cfg with runtimes := insertRuntime k ⟨cmd', m⟩ cfg.runtimes }
        entries mode? =
      apply_runtime_overrides cfg entries mode? := by
  intro entries
  induction entries with
  | nil =>
    intro cfg k c cmd' m mode? _ _ hex
    obtain ⟨e, he, _⟩ := hex
    cases he
  | cons e rest ih =>
    intro cfg k c cmd' m mode? hl hcompat hex
    cases hp : parseOverride e with
    | error err =>
      rw [apply_overrides_cons_err _ e rest mode? err
            (applyOne_err mode? _ e err hp),
          apply_overrides_cons_err cfg e rest mode? err
            (applyOne_err mode? cfg e err hp)]
    | ok p =>
      obtain ⟨k₀, cmd₀⟩ := p
      rw [apply_overrides_cons_ok _ _ e rest mode?
            (applyOne_eq mode? _ e k₀ cmd₀ hp),
          apply_overrides_cons_ok _ _ e rest mode?
            (applyOne_eq mode? cfg e k₀ cmd₀ hp)]
      dsimp only
      by_cases hk : k₀ = k
      · subst hk
        have hm₂ : modeFor mode?
            { cfg with runtimes := insertRuntime k₀ ⟨cmd', m⟩ cfg.runtimes }
            k₀ = m := by
          rcases hcompat with hc | hc <;> subst hc <;>
            simp [modeFor, lookup_insertRuntime_self]
        have hm₁ : modeFor mode? cfg k₀ = m := by
          rcases hcompat with hc | hc <;> subst hc <;> simp [modeFor, hl]
        rw [hm₁, hm₂, insertRuntime_same]
      · have hm₂ : modeFor mode?
            { cfg with runtimes := insertRuntime k ⟨cmd', m⟩ cfg.runtimes }
            k₀ = modeFor mode? cfg k₀ := by
          cases mode? with
          | some m' => rfl
          | none =>
            show (match lookupRuntime k₀
                (insertRuntime k ⟨cmd', m⟩ cfg.runtimes) with
              | some spec0 => spec0.mode
              | none => cfg.default_mode) = modeFor none cfg k₀
            rw [lookup_insertRuntime_ne k₀ k _ hk]
            rfl
        rw [hm₂]
        have hcomm :
            insertRuntime k₀ ⟨cmd₀, modeFor mode? cfg k₀⟩
              (insertRuntime k ⟨cmd', m⟩ cfg.runtimes) =
            insertRuntime k ⟨cmd', m⟩
              (insertRuntime k₀ ⟨cmd₀, modeFor mode? cfg k₀⟩ cfg.runtimes) :=
          insertRuntime_comm_of_mem k k₀ ⟨cmd', m⟩
            ⟨cmd₀, modeFor mode? cfg k₀⟩ ⟨c, m⟩
            (fun hc => hk hc.symm) cfg.runtimes hl
        rw [hcomm]
        have hex' : ∃ e' ∈ rest, ∃ p : String × String,
            parseOverride e' = .ok p ∧ p.1 = k := by
          obtain ⟨e', he', p, hp', hkey⟩ := hex
          rcases List.mem_cons.mp he' with he'' | he''
          · exfalso
            subst he''
            rw [hp] at hp'
            cases hp'
            exact hk hkey
          · exact ⟨e', he'', p, hp', hkey⟩
        have hl' : lookupRuntime k
            (insertRuntime k₀ ⟨cmd₀, modeFor mode? cfg k₀⟩ cfg.runtimes) =
            some ⟨c, m⟩ := by
          rw [lookup_insertRuntime_ne k k₀ _ (fun hc => hk hc.symm)]
          exact hl
        exact ih
          { cfg with runtimes :=
              insertRuntime k₀ ⟨cmd₀, modeFor mode? cfg k₀⟩ cfg.runtimes }
          k c cmd' m mode? hl' hcompat hex'

/-! ## C8: idempotence of override application -/

/-- C8: applying the same override list twice, with the same optional
mode, yields exactly the same config as applying it once — the override
merge is idempotent. -/
theorem apply_overrides_idempotent :
    ∀ (entries : List String) (cfg cfg' : Config)
      (mode? : Option ExecutionMode),
      apply_runtime_overrides cfg entries mode? = .ok cfg' →
      apply_runtime_overrides cfg' entries mode? = .ok cfg' := by
  intro entries
  induction entries with
  | nil =>
    intro cfg cfg' mode? h
    rw [apply_runtime_overrides] at h
    cases h
    rw [apply_runtime_overrides]
  | cons e rest ih =>
    intro cfg cfg' mode? h
    cases hp : parseOverride e with
    | error err =>
      rw [apply_overrides_cons_err cfg e rest mode? err
        (applyOne_err mode? cfg e err hp)] at h
      cases h
    | ok p =>
      obtain ⟨k, cmd⟩ := p
      rw [apply_overrides_cons_ok _ _ e rest mode?
        (applyOne_eq mode? cfg e k cmd hp)] at h
      have hIH : apply_runtime_overrides cfg' rest mode? = .ok cfg' :=
        ih _ cfg' mode? h
      have hla : lookupRuntime k
          ({ cfg with runtimes :=
              insertRuntime k ⟨cmd, modeFor mode? cfg k⟩ cfg.runtimes } :
            Config).runtimes = some ⟨cmd, modeFor mode? cfg k⟩ :=
        lookup_insertRuntime_self k _ cfg.runtimes
      have hcompat : mode? = none ∨ mode? = some (modeFor mode? cfg k) := by
        cases mode? with
        | none => exact Or.inl rfl
        | some m₀ => exact Or.inr rfl
      obtain ⟨c₁, hc₁⟩ := apply_overrides_mode_stable rest _ cfg' mode?
        k cmd (modeFor mode? cfg k) h hla hcompat
      have hm' : modeFor mode? cfg' k = modeFor mode? cfg k := by
        cases mode? with
        | some m₀ => rfl
        | none =>
          show (match lookupRuntime k cfg'.runtimes with
            | some spec0 => spec0.mode
            | none => cfg'.default_mode) = modeFor none cfg k
          rw [hc₁]
      rw [apply_overrides_cons_ok cfg' _ e rest mode?
        (applyOne_eq mode? cfg' e k cmd hp)]
      rw [hm']
      by_cases hex : ∃ e' ∈ rest, ∃ p : String × String,
          parseOverride e' = .ok p ∧ p.1 = k
      · have habs := apply_overrides_absorb rest cfg' k c₁ cmd
          (modeFor mode? cfg k) mode? hc₁ hcompat hex
        exact habs.trans hIH
      · have hnone : ∀ e' ∈ rest, ∀ p : String × String,
            parseOverride e' = .ok p → p.1 ≠ k := by
          intro e' he' p hp' hkey
          exact hex ⟨e', he', p, hp', hkey⟩
        have huntouched := apply_overrides_untouched rest _ cfg' mode? k h hnone
        have hsame : lookupRuntime k cfg'.runtimes =
            some ⟨cmd, modeFor mode? cfg k⟩ := by
          rw [huntouched]
          exact hla
        have hins : insertRuntime k ⟨cmd, modeFor mode? cfg k⟩ cfg'.runtimes =
            cfg'.runtimes :=
          insertRuntime_lookup_self k _ cfg'.runtimes hsame
        rw [hins]
        exact hIH

/-- Witness for C8: a two-entry batch (one seeded language, one new) at
the default config, applied a second time to its own result. -/
theorem apply_overrides_idempotent_witness :
    apply_runtime_overrides
      (Config.mk 2
        [ ("sh", ⟨"sh", .stdin⟩), ("bash", ⟨"bash", .stdin⟩)
        , ("python", ⟨"python3.11", .stdin⟩), ("javascript", ⟨"node", .stdin⟩)
        , ("newlang", ⟨"tool", .stdin⟩) ] .stdin)
      ["python:python3.11", "newlang:tool"] none =
    .ok (Config.mk 2
        [ ("sh", ⟨"sh", .stdin⟩), ("bash", ⟨"bash", .stdin⟩)
        , ("python", ⟨"python3.11", .stdin⟩), ("javascript", ⟨"node", .stdin⟩)
        , ("newlang", ⟨"tool", .stdin⟩) ] .stdin) :=
  apply_overrides_idempotent ["python:python3.11", "newlang:tool"]
    Config.default
    (Config.mk 2
      [ ("sh", ⟨"sh", .stdin⟩), ("bash", ⟨"bash", .stdin⟩)
      , ("python", ⟨"python3.11", .stdin⟩), ("javascript", ⟨"node", .stdin⟩)
      , ("newlang", ⟨"tool", .stdin⟩) ] .stdin)
    none (by decide)

/-! ## C10: a mode token without overrides is a configuration no-op -/

/-- C10: in the CLI configuration phase, an execution-mode token given
without any runtime override strings is still parsed and validated (an
invalid token aborts), but since `apply_runtime_overrides` is only
called on a non-empty override list, a valid mode alone leaves the
config exactly as if the flag were absent. -/
theorem mode_flag_alone_is_noop :
    ∀ (cfg0 : Config) (level? : Option Nat) (s : String),
      (∀ m : ExecutionMode, ExecutionMode.tryFrom s = .ok m →
        prepareConfig cfg0 level? [] (some s) = .ok (applyLevel cfg0 level?) ∧
        prepareConfig cfg0 level? [] (some s) =
          prepareConfig cfg0 level? [] none) ∧
      (∀ e : ModeError, ExecutionMode.tryFrom s = .error e →
        prepareConfig cfg0 level? [] (some s) = .error (.modeErr e)) := by
  intro cfg0 level? s
  constructor
  · intro m hm
    constructor
    · simp [prepareConfig, hm]
    · simp [prepareConfig, hm]
  · intro e he
    simp [prepareConfig, he]

/-- Witness for C10: the valid token "FILE" alone changes nothing; the
invalid token "socket" aborts. -/
theorem mode_flag_alone_is_noop_witness :
    prepareConfig Config.default none [] (some "FILE") =
      .ok (applyLevel Config.default none) ∧
    prepareConfig Config.default none [] (some "socket") =
      .error (.modeErr (.invalidMode "socket")) :=
  ⟨((mode_flag_alone_is_noop Config.default none "FILE").1 .file
      (by decide)).1,
   (mode_flag_alone_is_noop Config.default none "socket").2
      (.invalidMode "socket") (by decide)⟩

/-! ## C4: out-of-range heading level is rejected before anything runs -/

/-- C4: a heading level outside [1,6] is rejected with the named
`ParseErr.invalidHeadingLevel` before any section is produced: `parse`
fails immediately, the runner executes no block (empty trace) and the
listing query fails with the same error. -/
theorem invalid_level_rejected :
    ∀ (cfg : Config) (exits : Nat → Nat) (lines : List String)
      (name : String) (filter? : Option String),
      cfg.heading_level < 1 ∨ 6 < cfg.heading_level →
      parse cfg.heading_level lines =
        .error (.invalidHeadingLevel cfg.heading_level) ∧
      run_task_with_lang_filter cfg exits lines name filter? =
        ([], some (.parseFailed (.invalidHeadingLevel cfg.heading_level))) ∧
      list_task_sections cfg lines =
        .error (.invalidHeadingLevel cfg.heading_level) := by
  intro cfg exits lines name filter? h
  have hp : parse cfg.heading_level lines =
      .error (.invalidHeadingLevel cfg.heading_level) := by
    rw [parse, if_pos h]
  refine ⟨hp, ?_, ?_⟩
  · simp [run_task_with_lang_filter, hp]
  · rw [list_task_sections]
    exact hp

/-- Witness for C4: heading level 7 at a concrete document. -/
theorem invalid_level_rejected_witness :
    parse 7 ["## A"] = .error (.invalidHeadingLevel 7) ∧
    run_task_with_lang_filter (Config.mk 7 [] .stdin) (fun _ => 0)
      ["## A"] "A" none =
      ([], some (.parseFailed (.invalidHeadingLevel 7))) ∧
    list_task_sections (Config.mk 7 [] .stdin) ["## A"] =
      .error (.invalidHeadingLevel 7) :=
  invalid_level_rejected (Config.mk 7 [] .stdin) (fun _ => 0) ["## A"] "A"
    none (by decide)

/-! ## C9: listing is pure; language filtering is the caller's -/

/-- C9: the listing query is the parse result unchanged (no re-parsing,
no mutation), and the caller-side language filter keeps a section
exactly when some of its codes has `lang` equal to the filter string;
without a filter the section list is returned as is. -/
theorem list_and_filter_spec :
    ∀ (cfg : Config) (lines : List String) (secs : List Section)
      (lang : String) (s : Section),
      (list_task_sections cfg lines = parse cfg.heading_level lines) ∧
      (filterSectionsByLang none secs = secs) ∧
      (s ∈ filterSectionsByLang (some lang) secs ↔
        s ∈ secs ∧ ∃ c ∈ s.codes, c.lang = lang) := by
  intro cfg lines secs lang s
  refine ⟨rfl, rfl, ?_⟩
  simp [filterSectionsByLang, List.mem_filter]

/-! ## C7: the File-mode temporary file never survives -/

/-- C7: a File-mode execution step removes its temporary file on every
exit path — spawn failure, zero exit and non-zero exit alike — so the
file-system state returned to the executor equals the one it started
from, and the step's outcome faithfully reflects the child's. -/
theorem executeFileMode_removes_temp :
    ∀ (fs : List (String × String)) (tmp body : String)
      (out : ChildOutcome),
      (executeFileMode fs tmp body out).1 = fs ∧
      ((executeFileMode fs tmp body out).2 = none ↔ out = .exited 0) := by
  intro fs tmp body out
  cases out with
  | spawnFailure => simp [executeFileMode, removeFile]
  | exited code =>
    cases code with
    | zero => simp [executeFileMode, removeFile]
    | succ n => simp [executeFileMode, removeFile]

/-! ## C1: the first non-zero exit aborts the section -/

/-- The execution loop from an arbitrary starting index: with the first
`k` blocks exiting zero and block `k` exiting non-zero, exactly blocks
`i..i+k` run, once each, and the failure carries block `i+k`'s exit
code. -/
theorem execCodes_aborts_at_first_failure :
    ∀ (codes : List Code) (cfg : Config) (exits : Nat → Nat) (i k : Nat),
      k < codes.length →
      (∀ c ∈ codes, (lookupRuntime c.lang cfg.runtimes).isSome = true) →
      (∀ j, j < k → exits (i + j) = 0) →
      exits (i + k) ≠ 0 →
      execCodes cfg exits i codes =
        (List.range' i (k + 1), some (.exitCode (exits (i + k)))) := by
  intro codes
  induction codes with
  | nil =>
    intro cfg exits i k hk
    simp at hk
  | cons c cs ih =>
    intro cfg exits i k hk hreg hzero hnz
    obtain ⟨spec0, hspec⟩ := Option.isSome_iff_exists.mp
      (hreg c (List.mem_cons_self c cs))
    cases k with
    | zero =>
      have h0 : exits i ≠ 0 := by simpa using hnz
      simp only [execCodes, hspec, if_neg h0]
      simp [List.range']
    | succ k' =>
      have h0 : exits i = 0 := by simpa using hzero 0 (Nat.succ_pos k')
      have hz' : ∀ j, j < k' → exits (i + 1 + j) = 0 := by
        intro j hj
        have h2 := hzero (j + 1) (by omega)
        have he : i + (j + 1) = i + 1 + j := by omega
        rw [he] at h2
        exact h2
      have hnz' : exits (i + 1 + k') ≠ 0 := by
        have he : i + (k' + 1) = i + 1 + k' := by omega
        rw [he] at hnz
        exact hnz
      have hrec := ih cfg exits (i + 1) k' (by simpa using hk)
        (fun c' hc' => hreg c' (List.mem_cons_of_mem c hc')) hz' hnz'
      simp only [execCodes, hspec, if_pos h0, hrec]
      have he : i + (k' + 1) = i + 1 + k' := by omega
      rw [he]
      simp [List.range']

/-- C1: in a section whose first `k` blocks exit zero and whose block
`k` exits non-zero, exactly blocks 0..k execute, in order and once each
(no retry), blocks k+1..N never run, and the executor's failure carries
exactly block `k`'s exit code. -/
theorem first_nonzero_exit_aborts :
    ∀ (cfg : Config) (exits : Nat → Nat) (codes : List Code) (k : Nat),
      k < codes.length →
      (∀ c ∈ codes, (lookupRuntime c.lang cfg.runtimes).isSome = true) →
      (∀ j, j < k → exits j = 0) →
      exits k ≠ 0 →
      execCodes cfg exits 0 codes =
        (List.range (k + 1), some (.exitCode (exits k))) := by
  intro cfg exits codes k hk hreg hz hnz
  have h := execCodes_aborts_at_first_failure codes cfg exits 0 k hk hreg
    (fun j hj => by simpa using hz j hj) (by simpa using hnz)
  rw [List.range_eq_range']
  simpa using h

/-- Witness for C1: three bash blocks, the second exiting 7: blocks 0
and 1 run, block 2 never does, and the failure carries exit code 7. -/
theorem first_nonzero_exit_aborts_witness :
    execCodes Config.default (fun j => if j = 1 then 7 else 0) 0
      [⟨"bash", "a\n"⟩, ⟨"bash", "b\n"⟩, ⟨"bash", "c\n"⟩] =
      ([0, 1], some (.exitCode 7)) := by
  have h := first_nonzero_exit_aborts Config.default
    (fun j => if j = 1 then 7 else 0)
    [⟨"bash", "a\n"⟩, ⟨"bash", "b\n"⟩, ⟨"bash", "c\n"⟩] 1
    (by decide) (by decide) (by decide) (by decide)
  rw [h]
  decide

/-! ## C2: parsed code blocks are literal fence interiors -/

/-- All code blocks of a section list, in order. -/
def codesOf : List Section → List Code
  | [] => []
  | s :: rest => s.codes ++ codesOf rest

/-- Code blocks already accumulated in a scanner state. -/
def stateCodes : PState → List Code
  | .top => []
  | .topFence => []
  | .insec acc => acc.codes
  | .infence acc _ _ => acc.codes

/-- A code is a literal fence segment of `lines`: an opening fence line,
an interior without fence lines captured verbatim as the body, and a
closing fence line. -/
def FenceSeg (lines : List String) (c : Code) : Prop :=
  ∃ pre op mid cl post,
    lines = pre ++ op :: (mid ++ cl :: post) ∧
    isFence op = true ∧ isFence cl = true ∧
    (∀ x ∈ mid, isFence x = false) ∧
    c.lang = fenceLang op ∧ c.body = mkBody mid

/-- A code completes an already-open fence within `lines`: the rest of
the interior up to the next fence line, appended verbatim to the body
accumulated so far. -/
def OpenSeg (lines : List String) (lang : String) (body : List String)
    (c : Code) : Prop :=
  ∃ mid cl post,
    lines = mid ++ cl :: post ∧
    isFence cl = true ∧
    (∀ x ∈ mid, isFence x = false) ∧
    c = ⟨lang, mkBody (body ++ mid)⟩

/-- A fence segment survives prepending a consumed line. -/
theorem FenceSeg.cons (l : String) {lines : List String} {c : Code}
    (h : FenceSeg lines c) : FenceSeg (l :: lines) c := by
  obtain ⟨pre, op, mid, cl, post, hls, h1, h2, h3, h4, h5⟩ := h
  exact ⟨l :: pre, op, mid, cl, post, by rw [hls]; rfl, h1, h2, h3, h4, h5⟩

/-- Closing a section keeps exactly its codes. -/
theorem SecAcc.finish_codes (a : SecAcc) : a.finish.codes = a.codes := rfl

/-- Adding a description line never touches the codes. -/
theorem SecAcc.addDescLine_codes (a : SecAcc) (l : String) :
    (a.addDescLine l).codes = a.codes := by
  rw [SecAcc.addDescLine]
  split <;> rfl

/-- Adding a code appends it. -/
theorem SecAcc.addCode_codes (a : SecAcc) (c : Code) :
    (a.addCode c).codes = a.codes ++ [c] := rfl

/-- A code of a member section is a code of the section list. -/
theorem mem_codesOf {c : Code} {s : Section} :
    ∀ (secs : List Section), s ∈ secs → c ∈ s.codes → c ∈ codesOf secs := by
  intro secs
  induction secs with
  | nil => intro h; cases h
  | cons t rest ih =>
    intro hs hc
    rcases List.mem_cons.mp hs with h | h
    · subst h
      exact List.mem_append.mpr (Or.inl hc)
    · exact List.mem_append.mpr (Or.inr (ih h hc))

/-- Every code in the parse output either was already in the scanner
state, completes the currently open fence, or is a literal fence segment
of the remaining input. -/
theorem parseGo_code_origin :
    ∀ (lines : List String) (level : Nat) (st : PState)
      (secs : List Section),
      parseGo level lines st = .ok secs →
      ∀ c ∈ codesOf secs,
        c ∈ stateCodes st ∨
        (∃ acc lang body, st = .infence acc lang body ∧
          OpenSeg lines lang body c) ∨
        FenceSeg lines c := by
  intro lines level
  induction lines with
  | nil =>
    intro st secs h c hc
    cases st with
    | top =>
      rw [parseGo] at h
      cases h
      simp [codesOf] at hc
    | topFence => rw [parseGo] at h; cases h
    | insec acc =>
      rw [parseGo] at h
      cases h
      left
      have hc' : c ∈ acc.codes ++ codesOf [] := by
        simpa [codesOf, SecAcc.finish_codes] using hc
      simpa [codesOf] using hc'
    | infence acc lang body => rw [parseGo] at h; cases h
  | cons l ls ih =>
    intro st secs h c hc
    cases st with
    | top =>
      simp only [parseGo] at h
      by_cases hH : isHeading level l = true
      · rw [if_pos hH] at h
        rcases ih _ _ h c hc with hl | hm | hr
        · simp [stateCodes] at hl
        · obtain ⟨acc', lang', body', heq, _⟩ := hm; cases heq
        · exact Or.inr (Or.inr (hr.cons l))
      · rw [if_neg hH] at h
        by_cases hF : isFence l = true
        · rw [if_pos hF] at h
          rcases ih _ _ h c hc with hl | hm | hr
          · simp [stateCodes] at hl
          · obtain ⟨acc', lang', body', heq, _⟩ := hm; cases heq
          · exact Or.inr (Or.inr (hr.cons l))
        · rw [if_neg hF] at h
          rcases ih _ _ h c hc with hl | hm | hr
          · simp [stateCodes] at hl
          · obtain ⟨acc', lang', body', heq, _⟩ := hm; cases heq
          · exact Or.inr (Or.inr (hr.cons l))
    | topFence =>
      simp only [parseGo] at h
      by_cases hF : isFence l = true
      · rw [if_pos hF] at h
        rcases ih _ _ h c hc with hl | hm | hr
        · simp [stateCodes] at hl
        · obtain ⟨acc', lang', body', heq, _⟩ := hm; cases heq
        · exact Or.inr (Or.inr (hr.cons l))
      · rw [if_neg hF] at h
        rcases ih _ _ h c hc with hl | hm | hr
        · simp [stateCodes] at hl
        · obtain ⟨acc', lang', body', heq, _⟩ := hm; cases heq
        · exact Or.inr (Or.inr (hr.cons l))
    | insec acc =>
      simp only [parseGo] at h
      by_cases hH : isHeading level l = true
      · rw [if_pos hH] at h
        cases hrec : parseGo level ls (.insec ⟨headingTitle level l, [], []⟩) with
        | error e => rw [hrec] at h; cases h
        | ok secs' =>
          rw [hrec] at h
          cases h
          have hc' : c ∈ acc.codes ++ codesOf secs' := by
            simpa [codesOf, SecAcc.finish_codes] using hc
          rcases List.mem_append.mp hc' with hc1 | hc2
          · exact Or.inl hc1
          · rcases ih _ _ hrec c hc2 with hl | hm | hr
            · simp [stateCodes] at hl
            · obtain ⟨acc', lang', body', heq, _⟩ := hm; cases heq
            · exact Or.inr (Or.inr (hr.cons l))
      · rw [if_neg hH] at h
        by_cases hF : isFence l = true
        · rw [if_pos hF] at h
          rcases ih _ _ h c hc with hl | hm | hr
          · exact Or.inl hl
          · obtain ⟨acc', lang', body', heq, hOpen⟩ := hm
            injection heq with h1 h2 h3
            subst h1
            subst h2
            subst h3
            obtain ⟨mid, cl, post, hls, hcl, hmid, hcode⟩ := hOpen
            subst hcode
            right; right
            refine ⟨[], l, mid, cl, post, ?_, hF, hcl, hmid, rfl, rfl⟩
            rw [hls]
            rfl
          · exact Or.inr (Or.inr (hr.cons l))
        · rw [if_neg hF] at h
          rcases ih _ _ h c hc with hl | hm | hr
          · left
            have hl' : c ∈ (acc.addDescLine l).codes := hl
            rwa [SecAcc.addDescLine_codes] at hl'
          · obtain ⟨acc', lang', body', heq, _⟩ := hm; cases heq
          · exact Or.inr (Or.inr (hr.cons l))
    | infence acc lang body =>
      simp only [parseGo] at h
      by_cases hF : isFence l = true
      · rw [if_pos hF] at h
        rcases ih _ _ h c hc with hl | hm | hr
        · have hl' : c ∈ acc.codes ++ [Code.mk lang (mkBody body)] := hl
          rcases List.mem_append.mp hl' with hc1 | hc2
          · exact Or.inl hc1
          · have hceq : c = ⟨lang, mkBody body⟩ := by simpa using hc2
            subst hceq
            right; left
            refine ⟨acc, lang, body, rfl, [], l, ls, rfl, hF, by simp, ?_⟩
            rw [List.append_nil]
        · obtain ⟨acc', lang', body', heq, _⟩ := hm; cases heq
        · exact Or.inr (Or.inr (hr.cons l))
      · rw [if_neg hF] at h
        have hF' : isFence l = false := by simpa using hF
        rcases ih _ _ h c hc with hl | hm | hr
        · exact Or.inl hl
        · obtain ⟨acc', lang', body', heq, hOpen⟩ := hm
          injection heq with h1 h2 h3
          subst h1
          subst h2
          subst h3
          obtain ⟨mid, cl, post, hls, hcl, hmid, hcode⟩ := hOpen
          subst hcode
          right; left
          refine ⟨acc, lang, body, rfl, l :: mid, cl, post, ?_, hcl, ?_, ?_⟩
          · rw [hls]
            rfl
          · intro x hx
            rcases List.mem_cons.mp hx with hx | hx
            · subst hx; exact hF'
            · exact hmid x hx
          · rw [List.append_assoc]
            rfl
        · exact Or.inr (Or.inr (hr.cons l))

/-- C2: every parsed Code's `body` is exactly the literal text between
its code block's fence marker lines — the interior lines verbatim, each
with its newline, no re-indentation or normalization — and its `lang` is
the opening fence's info-string trimmed and lowercased. -/
theorem parsed_code_literal :
    ∀ (level : Nat) (lines : List String) (secs : List Section)
      (s : Section) (c : Code),
      parse level lines = .ok secs →
      s ∈ secs → c ∈ s.codes →
      ∃ pre op mid cl post,
        lines = pre ++ op :: (mid ++ cl :: post) ∧
        isFence op = true ∧ isFence cl = true ∧
        (∀ x ∈ mid, isFence x = false) ∧
        c.lang = toLowerStr (trimStr (dropStr 3 op)) ∧
        c.body = String.join (mid.map (fun x => x ++ "\n")) := by
  intro level lines secs s c h hs hc
  rw [parse] at h
  by_cases hlevel : level < 1 ∨ 6 < level
  · rw [if_pos hlevel] at h
    cases h
  · rw [if_neg hlevel] at h
    have horigin := parseGo_code_origin lines level .top secs h c
      (mem_codesOf secs hs hc)
    rcases horigin with hl | hm | hr
    · simp [stateCodes] at hl
    · obtain ⟨_, _, _, heq, _⟩ := hm; cases heq
    · obtain ⟨pre, op, mid, cl, post, hls, h1, h2, h3, h4, h5⟩ := hr
      exact ⟨pre, op, mid, cl, post, hls, h1, h2, h3, h4, h5⟩

/-- Witness for C2: a concrete document whose fence interior (including
an empty line) is recovered byte-for-byte, with the info-string " Bash "
normalized to "bash". -/
theorem parsed_code_literal_witness :
    ∃ pre op mid cl post,
      (["## Build", "```Bash ", "echo hi", "", "```"] : List String) =
        pre ++ op :: (mid ++ cl :: post) ∧
      isFence op = true ∧ isFence cl = true ∧
      (∀ x ∈ mid, isFence x = false) ∧
      (Code.mk "bash" "echo hi\n\n").lang =
        toLowerStr (trimStr (dropStr 3 op)) ∧
      (Code.mk "bash" "echo hi\n\n").body =
        String.join (mid.map (fun x => x ++ "\n")) :=
  parsed_code_literal 2 ["## Build", "```Bash ", "echo hi", "", "```"]
    [⟨"Build", none, [⟨"bash", "echo hi\n\n"⟩]⟩]
    ⟨"Build", none, [⟨"bash", "echo hi\n\n"⟩]⟩
    ⟨"bash", "echo hi\n\n"⟩
    (by decide) (by decide) (by decide)

end MqTask
